import Mathlib

/-!
Verification of the message codec and command-dispatch logic of a small
IRC client library (files `msg.go` and `client.go`).

Go strings are modelled as `List Char`; the string functions from Go's
`strings` package that the code uses (`TrimSpace`, `HasPrefix`, `SplitN`,
`Split`, `Contains`, `TrimLeft`, `TrimPrefix`) are given direct recursive
definitions below.  Fallible operations return `Except`/`Option`, and the
runtime panic that Go raises for an out-of-range slice index is modelled
by an explicit `ParseResult.crash` outcome.
-/

/-- A Go string, modelled as its list of characters. -/
abbrev GoStr := List Char

/-- Inject a Lean string literal into the Go-string model. -/
def gs (s : String) : GoStr := s.data

/-- The ASCII fragment of Go's `unicode.IsSpace` (all the whitespace the
claims exercise): space, tab, newline, vertical tab, form feed, carriage
return. -/
def isWhite (c : Char) : Bool :=
  c == ' ' || c == '\t' || c == '\n' || c == '\x0b' || c == '\x0c' || c == '\r'

/-- Go `strings.TrimSpace`: drop whitespace from both ends. -/
def trimSpace (s : GoStr) : GoStr :=
  ((s.dropWhile isWhite).reverse.dropWhile isWhite).reverse

/-- Go `strings.HasPrefix(s, ":")`. -/
def startsColon (s : GoStr) : Bool :=
  s.head? == some ':'

/-- Go `strings.TrimLeft(s, ":")`: drop every leading colon. -/
def dropColons (s : GoStr) : GoStr :=
  s.dropWhile (· == ':')

/-- Go `strings.SplitN(s, " ", 2)`: split at the first space.  `none`
models the one-element result Go returns when no space occurs. -/
def splitSp : GoStr → Option (GoStr × GoStr)
  | [] => none
  | c :: rest =>
      if c = ' ' then some ([], rest)
      else (splitSp rest).map fun pr => (c :: pr.1, pr.2)

/-- Go `strings.SplitN(s, " :", 2)` (and `strings.Contains(s, " :")`,
via `Option.isSome`): split at the first occurrence of the two-character
sequence `" :"`. -/
def splitSpCo : GoStr → Option (GoStr × GoStr)
  | [] => none
  | c :: rest =>
      if c = ' ' ∧ rest.head? = some ':' then some ([], rest.tail)
      else (splitSpCo rest).map fun pr => (c :: pr.1, pr.2)

/-- Go `strings.Split(s, sep)` for a one-character separator `sep`
(the code uses `strings.Split(raw, " ")` and `strings.Split(prefix, "!")`).
Always returns at least one element; `Split("", sep) = [""]`. -/
def splitAllChar (sep : Char) : GoStr → List GoStr
  | [] => [[]]
  | c :: rest =>
      if c = sep then [] :: splitAllChar sep rest
      else
        match splitAllChar sep rest with
        | [] => [[c]]
        | h :: t => (c :: h) :: t

/-- Go `strings.TrimPrefix(s, p)`. -/
def goTrimPref (p s : GoStr) : GoStr :=
  if p.isPrefixOf s then s.drop p.length else s

/-- The `Msg` struct of `msg.go`: `raw`/`pref`/`cmd`/`params` model the
Go fields `Raw`/`Prefix`/`Cmd`/`Params`. -/
structure Msg where
  raw : GoStr
  pref : GoStr
  cmd : GoStr
  params : List GoStr
deriving DecidableEq, Repr

/-- `Msg.paramsString` of `msg.go`: every parameter but the last is
followed by a single space, the last is preceded by a colon. -/
def paramsString : List GoStr → GoStr
  | [] => []
  | [p] => ':' :: p
  | p :: q :: rest => p ++ ' ' :: paramsString (q :: rest)

/-- `Msg.String` of `msg.go`: `fmt.Sprintf(":%v %v %v", Prefix, Cmd,
paramsString)`. -/
def Msg.toString (m : Msg) : GoStr :=
  ':' :: (m.pref ++ ' ' :: (m.cmd ++ ' ' :: paramsString m.params))

/-- Outcome of `ParseMsg`: a parsed message, the `ErrBadMsg` error, or a
Go runtime panic (`crash`, from the unchecked `prefixAndRest[1]` index). -/
inductive ParseResult where
  | ok (m : Msg)
  | badMsg
  | crash
deriving DecidableEq, Repr

/-- The part of `ParseMsg` after prefix handling (lines 54-69 of
`msg.go`): optional `" :"`-trailing split, space-split of command and
middle parameters, and the append of a non-empty trailing parameter. -/
def restMsg (trimmed pref working : GoStr) : Msg :=
  let wt : GoStr × GoStr :=
    match splitSpCo working with
    | none => (working, [])
    | some (before, tr) => (before, tr)
  let toks := splitAllChar ' ' wt.1
  let ps := if wt.2 = [] then toks.tail else toks.tail ++ [wt.2]
  ⟨trimmed, pref, toks.headI, ps⟩

/-- `ParseMsg` of `msg.go`.  Note that only the stored `Raw` field and
the emptiness check use the trimmed input; prefix detection and all
splitting work on the original string `raw`, exactly as in the source. -/
def parseMsg (raw : GoStr) : ParseResult :=
  let trimmed := trimSpace raw
  if trimmed = [] then .badMsg
  else if startsColon raw then
    match splitSp raw with
    | none => .crash
    | some (p0, rest) => .ok (restMsg trimmed (dropColons p0) rest)
  else .ok (restMsg trimmed [] raw)

/-- The `(prefix, command, params)` triple of a successful parse. -/
def parsedFields (raw : GoStr) : Option (GoStr × GoStr × List GoStr) :=
  match parseMsg raw with
  | .ok m => some (m.pref, m.cmd, m.params)
  | _ => none

/-- `Msg.ExtractPrivmsg` of `msg.go`: the `(source, body)` pair on
success, the `"Malformed PRIVMSG"` error otherwise. -/
def extractPrivmsg (m : Msg) : Except GoStr (GoStr × GoStr) :=
  if m.cmd = gs "PRIVMSG" ∧ m.params.length = 2 then
    .ok (m.params.getD 0 [], m.params.getD 1 [])
  else
    .error (gs "Malformed PRIVMSG")

/-- `Msg.ExtractNick` of `msg.go`: the part of the message prefix before
the first `!`, when the prefix contains one. -/
def extractNick (m : Msg) : Except GoStr GoStr :=
  if m.pref.contains '!' ∧ m.pref ≠ [] then
    .ok ((splitAllChar '!' m.pref).headI)
  else
    .error (gs "Unable to extract nick from prefix.")

/-- The `CmdHandler` struct of `client.go`, with the registered commands
(a Go `map[string]Cmd`) modelled as a key-unique association list; `α`
stands for the `Cmd` interface. -/
structure CmdHandler (α : Type) where
  pref : GoStr
  cmds : List (GoStr × α)

/-- Lookup in the association-list model of a Go map. -/
def mapLookup {α : Type} (k : GoStr) : List (GoStr × α) → Option α
  | [] => none
  | (k', v') :: rest => if k' = k then some v' else mapLookup k rest

/-- Insertion in the association-list model of a Go map: replace the
binding if the key is present, append it otherwise. -/
def mapInsert {α : Type} (k : GoStr) (v : α) : List (GoStr × α) → List (GoStr × α)
  | [] => [(k, v)]
  | (k', v') :: rest =>
      if k' = k then (k, v) :: rest else (k', v') :: mapInsert k v rest

/-- `CmdHandler.Register` of `client.go`: `c.cmds[name] = cmd`. -/
def register {α : Type} (h : CmdHandler α) (name : GoStr) (c : α) : CmdHandler α :=
  { h with cmds := mapInsert name c h.cmds }

/-- `CmdHandler.RegisteredNames` of `client.go`: the keys of the map. -/
def registeredNames {α : Type} (h : CmdHandler α) : List GoStr :=
  h.cmds.map Prod.fst

/-- `CmdHandler.Accepts` of `client.go`. -/
def accepts {α : Type} (h : CmdHandler α) (m : Msg) : Bool :=
  let isPrivmsg := m.cmd == gs "PRIVMSG"
  let hasCmdPref := m.params.length == 2 && h.pref.isPrefixOf (m.params.getD 1 [])
  isPrivmsg && hasCmdPref

/-- Visible outcome of `CmdHandler.Handle`: an extraction error was
logged, nothing happened, or `cmd.Respond(body, source, w)` was started
for the found command with the given arguments (`receiver` is the
channel the response writer is bound to). -/
inductive HandleResult (α : Type) where
  | logged (err : GoStr)
  | silent
  | dispatched (c : α) (body source receiver : GoStr)
deriving DecidableEq, Repr

/-- `CmdHandler.Handle` of `client.go`: extract `(receiver, body)`,
split the body at the first space into command token and rest, strip the
configured prefix from the token, extract the sender nick, look the name
up and dispatch. -/
def handle {α : Type} (h : CmdHandler α) (m : Msg) : HandleResult α :=
  match extractPrivmsg m with
  | .error e => .logged e
  | .ok (receiver, body) =>
    let name := goTrimPref h.pref (match splitSp body with | none => body | some (t, _) => t)
    let body2 := match splitSp body with | none => ([] : GoStr) | some (_, r) => r
    match extractNick m with
    | .error e => .logged e
    | .ok source =>
      match mapLookup name h.cmds with
      | some c => .dispatched c body2 source receiver
      | none => .silent

/-- `joinSp xs` is `xs` joined with single spaces (the shape
`strings.Split(s, " ")` inverts). -/
def joinSp : List GoStr → GoStr
  | [] => []
  | [x] => x
  | x :: y :: rest => x ++ ' ' :: joinSp (y :: rest)

/-- Each element followed by a single space (used to state the format of
the non-last parameters). -/
def withSp : List GoStr → GoStr
  | [] => []
  | x :: xs => x ++ ' ' :: withSp xs

/-- The parameter string as the (amended) spec describes it: empty for
empty `params`, otherwise every parameter but the last followed by a
single space and then the colon-prefixed last parameter. -/
def paramsStringSpec (ps : List GoStr) : GoStr :=
  if ps = [] then [] else withSp ps.dropLast ++ ':' :: ps.getLastD []

example : parseMsg (gs ":nick!user@host PRIVMSG #chan :hello there") =
    .ok ⟨gs ":nick!user@host PRIVMSG #chan :hello there", gs "nick!user@host",
      gs "PRIVMSG", [gs "#chan", gs "hello there"]⟩ := by decide

example : parseMsg (gs "PING :server1") =
    .ok ⟨gs "PING :server1", [], gs "PING", [gs "server1"]⟩ := by decide

example : parseMsg (gs "   ") = .badMsg := by decide

example : parseMsg (gs ":token") = .crash := by decide

example : Msg.toString ⟨[], gs "p", gs "C", []⟩ = gs ":p C " := by decide

example : parsedFields (gs " :a b") = some ([], [], [gs "a b"]) := by decide

/-! ### Facts about the modelled `strings` functions -/

theorem splitSp_append (s t : GoStr) (h : ' ' ∉ s) : splitSp (s ++ ' ' :: t) = some (s, t) := by
  induction s with
  | nil => simp [splitSp]
  | cons c cs ih =>
    have hc : ¬(c = ' ') := fun e => h (by simp [e])
    have h' : ' ' ∉ cs := fun hm => h (List.mem_cons_of_mem _ hm)
    show splitSp (c :: (cs ++ ' ' :: t)) = some (c :: cs, t)
    simp only [splitSp]
    rw [if_neg hc, ih h']
    rfl

theorem splitSp_eq_some (s a b : GoStr) (h : splitSp s = some (a, b)) :
    s = a ++ ' ' :: b ∧ ' ' ∉ a := by
  induction s generalizing a b with
  | nil => simp [splitSp] at h
  | cons c cs ih =>
    by_cases hc : c = ' '
    · subst hc
      simp only [splitSp, if_true] at h
      injection h with h'
      injection h' with h1 h2
      subst h1; subst h2
      exact ⟨rfl, by simp⟩
    · simp only [splitSp] at h
      rw [if_neg hc] at h
      cases hcs : splitSp cs with
      | none => rw [hcs] at h; cases h
      | some pr =>
        obtain ⟨a', b'⟩ := pr
        rw [hcs] at h
        injection h with h'
        injection h' with h1 h2
        subst h1; subst h2
        obtain ⟨hs, hna⟩ := ih a' b' hcs
        refine ⟨by rw [hs]; rfl, ?_⟩
        intro hm
        rcases List.mem_cons.mp hm with h4 | h5
        · exact hc h4.symm
        · exact hna h5

theorem splitSpCo_append (s t : GoStr) (h : splitSpCo s = none) :
    splitSpCo (s ++ ' ' :: ':' :: t) = some (s, t) := by
  induction s with
  | nil => simp [splitSpCo]
  | cons c cs ih =>
    have hcond2 : ¬(c = ' ' ∧ cs.head? = some ':') := by
      intro hcond
      simp only [splitSpCo] at h
      rw [if_pos hcond] at h
      cases h
    have hcs : splitSpCo cs = none := by
      simp only [splitSpCo] at h
      rw [if_neg hcond2] at h
      exact Option.map_eq_none'.mp h
    have hcond' : ¬(c = ' ' ∧ (cs ++ ' ' :: ':' :: t).head? = some ':') := by
      rintro ⟨hc, hh⟩
      apply hcond2
      refine ⟨hc, ?_⟩
      cases cs with
      | nil =>
        rw [List.nil_append] at hh
        exact absurd (Option.some.inj hh) (by decide)
      | cons d ds => simpa using hh
    show splitSpCo (c :: (cs ++ ' ' :: ':' :: t)) = some (c :: cs, t)
    simp only [splitSpCo]
    rw [if_neg hcond', ih hcs]
    rfl

theorem splitSpCo_none_right (a b : GoStr) (h : splitSpCo (a ++ b) = none) :
    splitSpCo b = none := by
  induction a with
  | nil => exact h
  | cons c cs ih =>
    apply ih
    rw [List.cons_append] at h
    simp only [splitSpCo] at h
    by_cases hcond : c = ' ' ∧ (cs ++ b).head? = some ':'
    · rw [if_pos hcond] at h; cases h
    · rw [if_neg hcond] at h
      exact Option.map_eq_none'.mp h

theorem splitSpCo_none_of_no_space (s : GoStr) (h : ' ' ∉ s) : splitSpCo s = none := by
  induction s with
  | nil => rfl
  | cons c cs ih =>
    have hc : ¬(c = ' ') := fun e => h (by simp [e])
    have h' : ' ' ∉ cs := fun hm => h (List.mem_cons_of_mem _ hm)
    simp only [splitSpCo]
    rw [if_neg (fun hp : c = ' ' ∧ cs.head? = some ':' => hc hp.1), ih h']
    rfl

theorem splitSpCo_cons_block (c rest : GoStr) (hc : ' ' ∉ c) (hh : rest.head? ≠ some ':')
    (hr : splitSpCo rest = none) : splitSpCo (c ++ ' ' :: rest) = none := by
  induction c with
  | nil =>
    show splitSpCo (' ' :: rest) = none
    simp only [splitSpCo, true_and]
    rw [if_neg hh, hr]
    rfl
  | cons d ds ih =>
    have hd : ¬(d = ' ') := fun e => hc (by simp [e])
    have h' : ' ' ∉ ds := fun hm => hc (List.mem_cons_of_mem _ hm)
    show splitSpCo (d :: (ds ++ ' ' :: rest)) = none
    simp only [splitSpCo]
    rw [if_neg (fun hp : d = ' ' ∧ (ds ++ ' ' :: rest).head? = some ':' => hd hp.1), ih h']
    rfl

theorem splitAllChar_no_sep (sep : Char) (s : GoStr) (h : sep ∉ s) :
    splitAllChar sep s = [s] := by
  induction s with
  | nil => rfl
  | cons c cs ih =>
    have hc : ¬(c = sep) := fun e => h (by simp [e])
    have ih' := ih (fun m => h (List.mem_cons_of_mem _ m))
    simp only [splitAllChar]
    rw [if_neg hc, ih']

theorem splitAllChar_append (sep : Char) (c r : GoStr) (h : sep ∉ c) :
    splitAllChar sep (c ++ sep :: r) = c :: splitAllChar sep r := by
  induction c with
  | nil =>
    show splitAllChar sep (sep :: r) = [] :: splitAllChar sep r
    simp [splitAllChar]
  | cons d ds ih =>
    have hd : ¬(d = sep) := fun e => h (by simp [e])
    have ih' := ih (fun m => h (List.mem_cons_of_mem _ m))
    show splitAllChar sep (d :: (ds ++ sep :: r)) = (d :: ds) :: splitAllChar sep r
    simp only [splitAllChar]
    rw [if_neg hd, ih']

theorem mem_dropWhile_of_not (p : Char → Bool) (s : GoStr) (c : Char) (hc : p c = false)
    (hm : c ∈ s) : c ∈ s.dropWhile p := by
  induction s with
  | nil => cases hm
  | cons d ds ih =>
    by_cases hd : p d = true
    · rw [List.dropWhile_cons_of_pos hd]
      apply ih
      rcases List.mem_cons.mp hm with h1 | h2
      · exact absurd (h1 ▸ hd) (by simp [hc])
      · exact h2
    · rw [List.dropWhile_cons_of_neg hd]
      exact hm

theorem trimSpace_ne_nil (s : GoStr) (c : Char) (hc : isWhite c = false) (hm : c ∈ s) :
    trimSpace s ≠ [] := by
  unfold trimSpace
  intro hempty
  have h1 : c ∈ s.dropWhile isWhite := mem_dropWhile_of_not _ _ _ hc hm
  have h2 : c ∈ (s.dropWhile isWhite).reverse := List.mem_reverse.mpr h1
  have h3 : c ∈ (s.dropWhile isWhite).reverse.dropWhile isWhite :=
    mem_dropWhile_of_not _ _ _ hc h2
  have h4 : c ∈ ((s.dropWhile isWhite).reverse.dropWhile isWhite).reverse :=
    List.mem_reverse.mpr h3
  rw [hempty] at h4
  cases h4

theorem dropColons_cons (p : GoStr) (h : p.head? ≠ some ':') : dropColons (':' :: p) = p := by
  cases p with
  | nil => rfl
  | cons d ds =>
    have hd : d ≠ ':' := fun e => h (by simp [e])
    have hb : (d == ':') = false := by
      simp [hd]
    simp [dropColons, List.dropWhile, hb]

theorem head?_append_left (s t : GoStr) (h : s ≠ []) : (s ++ t).head? = s.head? := by
  cases s with
  | nil => exact absurd rfl h
  | cons a as => rfl

/-! ### Shape of a formatted message -/

theorem paramsString_cons_of_ne_nil (p : GoStr) (ps : List GoStr) (h : ps ≠ []) :
    paramsString (p :: ps) = p ++ ' ' :: paramsString ps := by
  cases ps with
  | nil => exact absurd rfl h
  | cons q rest => rfl

theorem bridge (mids : List GoStr) (c lst : GoStr) :
    c ++ ' ' :: paramsString (mids ++ [lst]) = joinSp (c :: mids) ++ ' ' :: ':' :: lst := by
  induction mids generalizing c with
  | nil => simp [paramsString, joinSp]
  | cons m ms ih =>
    rw [List.cons_append, paramsString_cons_of_ne_nil m _ (by simp)]
    rw [show joinSp (c :: m :: ms) = c ++ ' ' :: joinSp (m :: ms) from rfl]
    rw [List.append_assoc, List.cons_append]
    rw [← ih m]

theorem joinSp_no_spco (c : GoStr) (ms : List GoStr) (hc : ' ' ∉ c)
    (hm : ∀ x ∈ ms, ' ' ∉ x ∧ x.head? ≠ some ':') :
    splitSpCo (joinSp (c :: ms)) = none := by
  induction ms generalizing c with
  | nil => exact splitSpCo_none_of_no_space c hc
  | cons m ms' ih =>
    rw [show joinSp (c :: m :: ms') = c ++ ' ' :: joinSp (m :: ms') from rfl]
    apply splitSpCo_cons_block c _ hc
    · have hmh := (hm m (by simp)).2
      cases ms' with
      | nil => simpa [joinSp] using hmh
      | cons a as =>
        cases m with
        | nil =>
          rw [show joinSp ([] :: a :: as) = [] ++ ' ' :: joinSp (a :: as) from rfl]
          simp
        | cons d ds =>
          rw [show joinSp ((d :: ds) :: a :: as) = (d :: ds) ++ ' ' :: joinSp (a :: as) from rfl]
          simpa using hmh
    · exact ih m (hm m (by simp)).1 (fun x hx => hm x (by simp [hx]))

theorem joinSp_splitAll (c : GoStr) (ms : List GoStr) (hc : ' ' ∉ c)
    (hm : ∀ x ∈ ms, ' ' ∉ x) : splitAllChar ' ' (joinSp (c :: ms)) = c :: ms := by
  induction ms generalizing c with
  | nil => exact splitAllChar_no_sep ' ' c hc
  | cons m ms' ih =>
    rw [show joinSp (c :: m :: ms') = c ++ ' ' :: joinSp (m :: ms') from rfl]
    rw [splitAllChar_append ' ' c _ hc]
    rw [ih m (hm m (by simp)) (fun x hx => hm x (by simp [hx]))]

/-! ### Unfolding `ParseMsg` along its branches -/

theorem restMsg_no_trailing (t pref w : GoStr) (h : splitSpCo w = none) :
    restMsg t pref w = ⟨t, pref, (splitAllChar ' ' w).headI, (splitAllChar ' ' w).tail⟩ := by
  simp [restMsg, h]

theorem restMsg_trailing (t pref w before tr : GoStr) (h : splitSpCo w = some (before, tr))
    (hne : tr ≠ []) :
    restMsg t pref w =
      ⟨t, pref, (splitAllChar ' ' before).headI, (splitAllChar ' ' before).tail ++ [tr]⟩ := by
  simp [restMsg, h, hne]

theorem restMsg_trailing_empty (t pref w before : GoStr) (h : splitSpCo w = some (before, [])) :
    restMsg t pref w = ⟨t, pref, (splitAllChar ' ' before).headI, (splitAllChar ' ' before).tail⟩ := by
  simp [restMsg, h]

theorem parseMsg_colon (raw p0 rest : GoStr) (ht : trimSpace raw ≠ [])
    (hs : startsColon raw = true) (hsp : splitSp raw = some (p0, rest)) :
    parseMsg raw = .ok (restMsg (trimSpace raw) (dropColons p0) rest) := by
  simp [parseMsg, ht, hs, hsp]

theorem parseMsg_no_colon (raw : GoStr) (ht : trimSpace raw ≠ [])
    (hs : startsColon raw = false) :
    parseMsg raw = .ok (restMsg (trimSpace raw) [] raw) := by
  simp [parseMsg, ht, hs]

theorem parseMsg_badMsg_iff (raw : GoStr) :
    parseMsg raw = ParseResult.badMsg ↔ trimSpace raw = [] := by
  constructor
  · intro h
    by_contra ht
    by_cases hs : startsColon raw = true
    · cases hsp : splitSp raw with
      | none => simp [parseMsg, ht, hs, hsp] at h
      | some pr => simp [parseMsg, ht, hs, hsp] at h
    · simp [parseMsg, ht, hs] at h
  · intro h
    simp [parseMsg, h]

/-! ### Claim theorems -/

/-- C1, counterexample: the round-trip claim fails as stated.  The message
with prefix `"p"`, non-empty command `"C"` and empty `params` (so no
parameter contains `" :"`) formats to `":p C "`, which parses back with
`params = [""]` instead of `[]`. -/
theorem roundTripCexEmptyParams :
    gs "C" ≠ [] ∧
    Msg.toString ⟨[], gs "p", gs "C", []⟩ = gs ":p C " ∧
    parsedFields (Msg.toString ⟨[], gs "p", gs "C", []⟩) = some (gs "p", gs "C", [[]]) ∧
    ([[]] : List GoStr) ≠ [] := by decide

/-- C1 (amended): round-trip holds once the claim's conditions are
strengthened to what the code needs: non-empty `params` whose last
element is non-empty (it may contain spaces and `" :"`), middle
parameters without spaces and not starting with `':'`, a prefix without
spaces and not starting with `':'`, and a non-empty command without
spaces.  Then parsing the formatted line gives back equal prefix,
command and parameters. -/
theorem privmsgRoundTrip (r p c lst : GoStr) (mids : List GoStr)
    (hp1 : ' ' ∉ p) (hp2 : p.head? ≠ some ':')
    (_hc1 : c ≠ []) (hc2 : ' ' ∉ c)
    (hm : ∀ x ∈ mids, ' ' ∉ x ∧ x.head? ≠ some ':')
    (hl : lst ≠ []) :
    parseMsg (Msg.toString ⟨r, p, c, mids ++ [lst]⟩) =
      .ok ⟨trimSpace (Msg.toString ⟨r, p, c, mids ++ [lst]⟩), p, c, mids ++ [lst]⟩ := by
  have hshape : Msg.toString ⟨r, p, c, mids ++ [lst]⟩ =
      (':' :: p) ++ ' ' :: (joinSp (c :: mids) ++ ' ' :: ':' :: lst) := by
    show ':' :: (p ++ ' ' :: (c ++ ' ' :: paramsString (mids ++ [lst]))) = _
    rw [bridge mids c lst]
    rfl
  have hnosp : ' ' ∉ ':' :: p := by
    intro hmem
    rcases List.mem_cons.mp hmem with h1 | h2
    · exact absurd h1 (by decide)
    · exact hp1 h2
  have htrim : trimSpace (Msg.toString ⟨r, p, c, mids ++ [lst]⟩) ≠ [] := by
    apply trimSpace_ne_nil _ ':' (by decide)
    rw [hshape]
    simp
  have hstart : startsColon (Msg.toString ⟨r, p, c, mids ++ [lst]⟩) = true := by
    rw [hshape]
    rfl
  have hsp : splitSp (Msg.toString ⟨r, p, c, mids ++ [lst]⟩) =
      some (':' :: p, joinSp (c :: mids) ++ ' ' :: ':' :: lst) := by
    rw [hshape]
    exact splitSp_append _ _ hnosp
  have hco : splitSpCo (joinSp (c :: mids) ++ ' ' :: ':' :: lst) =
      some (joinSp (c :: mids), lst) :=
    splitSpCo_append _ _ (joinSp_no_spco c mids hc2 hm)
  have hall : splitAllChar ' ' (joinSp (c :: mids)) = c :: mids :=
    joinSp_splitAll c mids hc2 (fun x hx => (hm x hx).1)
  rw [parseMsg_colon _ (':' :: p) _ htrim hstart hsp]
  rw [restMsg_trailing _ _ _ _ _ hco hl]
  rw [hall, dropColons_cons p hp2]
  simp

/-- C1, witness: a concrete round-trip through the amended theorem. -/
theorem privmsgRoundTripWitness :
    parseMsg (Msg.toString ⟨[], gs "nick!user@host", gs "PRIVMSG",
        [gs "#chan", gs "hello there"]⟩) =
      ParseResult.ok ⟨gs ":nick!user@host PRIVMSG #chan :hello there", gs "nick!user@host",
        gs "PRIVMSG", [gs "#chan", gs "hello there"]⟩ := by
  have h := privmsgRoundTrip [] (gs "nick!user@host") (gs "PRIVMSG") (gs "hello there")
    [gs "#chan"] (by decide) (by decide) (by decide) (by decide) (by decide) (by decide)
  rw [show ([gs "#chan"] ++ [gs "hello there"] : List GoStr) = [gs "#chan", gs "hello there"]
    from rfl] at h
  rw [h]
  decide

/-- C2: the claim that every non-empty-after-trim line not beginning
with two spaces is accepted is contradicted by the code: a line that is
a colon-prefixed token with no space (here `":token"`) makes `ParseMsg`
index `prefixAndRest[1]` on a one-element slice — a runtime panic, not a
returned `Msg`. -/
theorem parseCrashOnBareColonToken :
    trimSpace (gs ":token") ≠ [] ∧
    (gs ":token").take 2 ≠ gs "  " ∧
    parseMsg (gs ":token") = ParseResult.crash := by decide

/-- C3, counterexample: decoded fields are not those of the trimmed
line.  For the input `" :a b"` (trim: `":a b"`) prefix detection runs on
the untrimmed line, so no prefix is recognised; the parse differs from
the parse of the trimmed line. -/
theorem parseNotTrimInvariant :
    trimSpace (gs " :a b") = gs ":a b" ∧
    parsedFields (gs " :a b") ≠ parsedFields (trimSpace (gs " :a b")) := by decide

/-- C3 (amended): `ParseMsg` fails with `ErrBadMsg` exactly when the
whitespace-trimmed input is empty; but the decoded fields come from the
original untrimmed line (prefix detection included), so surrounding
whitespace can change them — only the failure condition and the stored
`Raw` field are computed from the trimmed line. -/
theorem parseFailsIffTrimEmpty (raw : GoStr) :
    parseMsg raw = ParseResult.badMsg ↔ trimSpace raw = [] :=
  parseMsg_badMsg_iff raw

/-- C4, counterexample: with empty `params` the formatted line is
`":p C "` — it ends with the space after the command, not with the
empty colon-prefixed trailing token `":"` the claim requires. -/
theorem formatEmptyParamsEndsWithSpace :
    Msg.toString ⟨[], gs "p", gs "C", []⟩ = gs ":p C " ∧
    gs ":p C " ≠ gs ":p C :" := by decide

theorem paramsString_snoc (mids : List GoStr) (lst : GoStr) :
    paramsString (mids ++ [lst]) = withSp mids ++ ':' :: lst := by
  induction mids with
  | nil => rfl
  | cons m ms ih =>
    rw [List.cons_append, paramsString_cons_of_ne_nil m _ (by simp), ih]
    simp [withSp]

theorem paramsString_eq_spec (ps : List GoStr) : paramsString ps = paramsStringSpec ps := by
  rcases List.eq_nil_or_concat ps with h | ⟨mids, lst, h⟩
  · subst h
    rfl
  · subst h
    rw [List.concat_eq_append, paramsString_snoc]
    unfold paramsStringSpec
    rw [if_neg (by simp)]
    have h1 : (mids ++ [lst]).dropLast = mids := by simp
    have h2 : (mids ++ [lst]).getLastD [] = lst := by
      simp [List.getLastD_eq_getLast?]
    rw [h1, h2]

/-- C4 (amended): `Format` produces
`":" ++ prefix ++ " " ++ command ++ " " ++ paramsString` where
`paramsString` puts a single space after every parameter but the last
and a `':'` before the last; for empty `params` it is empty (so the line
ends with the space after the command, not with a lone `":"`). -/
theorem formatShape (r p c : GoStr) (ps : List GoStr) :
    Msg.toString ⟨r, p, c, ps⟩ = ':' :: (p ++ ' ' :: (c ++ ' ' :: paramsStringSpec ps)) := by
  show ':' :: (p ++ ' ' :: (c ++ ' ' :: paramsString ps)) = _
  rw [paramsString_eq_spec]

/-- C5: an empty trailing parameter is silently dropped.  If `" :"` does
not occur in `s` (so in the line `s ++ " :"` the text after the first
`" :"` is empty) and `s` itself parses, then `s ++ " :"` parses to the
very same prefix, command and parameters — the empty trailing parameter
is not appended. -/
theorem parseDropsEmptyTrailing (s : GoStr) (m' : Msg)
    (hns : splitSpCo s = none) (hok : parseMsg s = ParseResult.ok m') :
    parseMsg (s ++ gs " :") = ParseResult.ok ⟨trimSpace (s ++ gs " :"), m'.pref, m'.cmd,
      m'.params⟩ := by
  have hD : gs " :" = [' ', ':'] := rfl
  have ht : trimSpace s ≠ [] := by
    intro h
    rw [(parseMsg_badMsg_iff s).mpr h] at hok
    cases hok
  have hs_ne : s ≠ [] := by
    intro h
    subst h
    exact ht rfl
  have ht2 : trimSpace (s ++ gs " :") ≠ [] := by
    apply trimSpace_ne_nil _ ':' (by decide)
    rw [hD]
    simp
  by_cases hc : startsColon s = true
  · cases hsp : splitSp s with
    | none => simp [parseMsg, ht, hc, hsp] at hok
    | some pr =>
      obtain ⟨p0, rest⟩ := pr
      obtain ⟨hdec, hnp⟩ := splitSp_eq_some s p0 rest hsp
      have hrest : splitSpCo rest = none := by
        apply splitSpCo_none_right (p0 ++ [' ']) rest
        rw [show (p0 ++ [' ']) ++ rest = p0 ++ ' ' :: rest by simp]
        rw [← hdec]
        exact hns
      rw [parseMsg_colon s p0 rest ht hc hsp, restMsg_no_trailing _ _ _ hrest] at hok
      injection hok with hm'
      have hstart2 : startsColon (s ++ gs " :") = true := by
        rw [startsColon] at hc ⊢
        rw [head?_append_left s _ hs_ne]
        exact hc
      have hsp2 : splitSp (s ++ gs " :") = some (p0, rest ++ gs " :") := by
        rw [hdec, hD]
        rw [show (p0 ++ ' ' :: rest) ++ [' ', ':'] = p0 ++ ' ' :: (rest ++ [' ', ':']) by simp]
        exact splitSp_append p0 _ hnp
      have hco2 : splitSpCo (rest ++ gs " :") = some (rest, []) := by
        rw [hD]
        exact splitSpCo_append rest [] hrest
      rw [parseMsg_colon _ p0 (rest ++ gs " :") ht2 hstart2 hsp2]
      rw [restMsg_trailing_empty _ _ _ _ hco2]
      rw [← hm']
  · have hc' : startsColon s = false := by
      rw [Bool.not_eq_true] at hc
      exact hc
    rw [parseMsg_no_colon s ht hc', restMsg_no_trailing _ _ _ hns] at hok
    injection hok with hm'
    have hstart2 : startsColon (s ++ gs " :") = false := by
      rw [startsColon] at hc' ⊢
      rw [head?_append_left s _ hs_ne]
      exact hc'
    have hco2 : splitSpCo (s ++ gs " :") = some (s, []) := by
      rw [hD]
      exact splitSpCo_append s [] hns
    rw [parseMsg_no_colon _ ht2 hstart2]
    rw [restMsg_trailing_empty _ _ _ _ hco2]
    rw [← hm']

/-- C5, witness: `"PING a :"` parses exactly like `"PING a"`. -/
theorem parseDropsEmptyTrailingWitness :
    parseMsg (gs "PING a" ++ gs " :") =
      ParseResult.ok ⟨gs "PING a :", [], gs "PING", [gs "a"]⟩ := by
  rw [parseDropsEmptyTrailing (gs "PING a") ⟨gs "PING a", [], gs "PING", [gs "a"]⟩
    (by decide) (by decide)]
  decide

/-- C6: `Accepts` is true exactly for a `PRIVMSG` with exactly two
parameters whose second parameter starts with the handler's configured
prefix. -/
theorem acceptsIff {α : Type} (h : CmdHandler α) (m : Msg) :
    accepts h m = true ↔
      (m.cmd = gs "PRIVMSG" ∧ ∃ a b, m.params = [a, b] ∧ h.pref.isPrefixOf b = true) := by
  simp only [accepts, Bool.and_eq_true, beq_iff_eq]
  constructor
  · rintro ⟨h1, h2, h3⟩
    refine ⟨h1, ?_⟩
    obtain ⟨a, b, hab⟩ := List.length_eq_two.mp (by simpa using h2)
    refine ⟨a, b, hab, ?_⟩
    rw [hab] at h3
    simpa using h3
  · rintro ⟨h1, a, b, hab, hpre⟩
    refine ⟨h1, ?_, ?_⟩ <;> simp [hab, hpre]

/-- C8: `ExtractPrivmsg` succeeds with the first and second parameter
exactly when the command is `"PRIVMSG"` and there are exactly two
parameters; otherwise it fails with the `"Malformed PRIVMSG"` error. -/
theorem extractPrivmsgIff (m : Msg) :
    (∀ a b, extractPrivmsg m = .ok (a, b) ↔ (m.cmd = gs "PRIVMSG" ∧ m.params = [a, b])) ∧
    (extractPrivmsg m = .error (gs "Malformed PRIVMSG") ↔
      ¬(m.cmd = gs "PRIVMSG" ∧ m.params.length = 2)) := by
  constructor
  · intro a b
    constructor
    · intro h
      by_cases hcond : m.cmd = gs "PRIVMSG" ∧ m.params.length = 2
      · obtain ⟨h1, h2⟩ := hcond
        obtain ⟨x, y, hxy⟩ := List.length_eq_two.mp h2
        rw [extractPrivmsg, if_pos ⟨h1, h2⟩] at h
        injection h with h'
        rw [hxy] at h' ⊢
        simp only [List.getD] at h'
        injection h' with hx hy
        simp at hx hy
        rw [hx, hy]
        exact ⟨h1, rfl⟩
      · rw [extractPrivmsg, if_neg hcond] at h
        cases h
    · rintro ⟨h1, hab⟩
      rw [extractPrivmsg, if_pos ⟨h1, by rw [hab]; rfl⟩]
      rw [hab]
      rfl
  · constructor
    · intro h hcond
      rw [extractPrivmsg, if_pos hcond] at h
      cases h
    · intro hcond
      rw [extractPrivmsg, if_neg hcond]

/-- C7: for a handler with prefix `"!"` and a two-parameter `PRIVMSG`
whose sender prefix contains `'!'`, `Handle` splits the body at the
first space, strips `"!"` from the first token, and dispatches the `Cmd`
registered under the resulting name: body `"!echo hi there"` dispatches
`"echo"` with body `"hi there"`, body `"!echo"` alone dispatches
`"echo"` with empty body; if nothing is registered under `"echo"`,
nothing is dispatched and no error is raised. -/
theorem cmdHandlerHandleEcho {α : Type} (h : CmdHandler α) (r p rcv : GoStr)
    (hpre : h.pref = gs "!") (hbang : p.contains '!' = true) :
    (∀ c, mapLookup (gs "echo") h.cmds = some c →
        handle h ⟨r, p, gs "PRIVMSG", [rcv, gs "!echo hi there"]⟩ =
          .dispatched c (gs "hi there") ((splitAllChar '!' p).headI) rcv ∧
        handle h ⟨r, p, gs "PRIVMSG", [rcv, gs "!echo"]⟩ =
          .dispatched c [] ((splitAllChar '!' p).headI) rcv) ∧
    (mapLookup (gs "echo") h.cmds = none →
        handle h ⟨r, p, gs "PRIVMSG", [rcv, gs "!echo hi there"]⟩ = .silent ∧
        handle h ⟨r, p, gs "PRIVMSG", [rcv, gs "!echo"]⟩ = .silent) := by
  have hp_ne : p ≠ [] := by
    intro e
    rw [e] at hbang
    cases hbang
  have hpriv : ∀ b, extractPrivmsg ⟨r, p, gs "PRIVMSG", [rcv, b]⟩ = .ok (rcv, b) := by
    intro b
    rw [extractPrivmsg, if_pos ⟨rfl, rfl⟩]
    rfl
  have hnick : ∀ b, extractNick ⟨r, p, gs "PRIVMSG", [rcv, b]⟩ =
      .ok ((splitAllChar '!' p).headI) := by
    intro b
    rw [extractNick, if_pos ⟨hbang, hp_ne⟩]
  have hsplit1 : splitSp (gs "!echo hi there") = some (gs "!echo", gs "hi there") := by decide
  have hsplit2 : splitSp (gs "!echo") = none := by decide
  have hname : goTrimPref (gs "!") (gs "!echo") = gs "echo" := by decide
  constructor
  · intro c hc
    constructor <;>
      simp [handle, hpriv, hnick, hsplit1, hsplit2, hname, hpre, hc]
  · intro hc
    constructor <;>
      simp [handle, hpriv, hnick, hsplit1, hsplit2, hname, hpre, hc]

/-! ### Facts about the map model -/

theorem mapInsert_cons_eq {α : Type} (k : GoStr) (v v' : α) (rest : List (GoStr × α)) :
    mapInsert k v ((k, v') :: rest) = (k, v) :: rest := by
  simp only [mapInsert, if_true]

theorem mapInsert_cons_ne {α : Type} (k k' : GoStr) (v v' : α) (rest : List (GoStr × α))
    (h : k' ≠ k) : mapInsert k v ((k', v') :: rest) = (k', v') :: mapInsert k v rest := by
  simp only [mapInsert]
  rw [if_neg h]

theorem mapLookup_insert_self {α : Type} (k : GoStr) (v : α) (l : List (GoStr × α)) :
    mapLookup k (mapInsert k v l) = some v := by
  induction l with
  | nil => simp [mapInsert, mapLookup]
  | cons e rest ih =>
    obtain ⟨k', v'⟩ := e
    by_cases hk : k' = k
    · simp [mapInsert, hk, mapLookup]
    · simp [mapInsert, hk, mapLookup, ih]

theorem mapInsert_keys_sub {α : Type} (k : GoStr) (v : α) (l : List (GoStr × α)) :
    ∀ x, x ∈ (mapInsert k v l).map Prod.fst → x = k ∨ x ∈ l.map Prod.fst := by
  induction l with
  | nil =>
    intro x hx
    rw [show mapInsert k v [] = [(k, v)] from rfl, List.map_cons] at hx
    rcases List.mem_cons.mp hx with h1 | h1
    · exact Or.inl h1
    · cases h1
  | cons e rest ih =>
    obtain ⟨k', v'⟩ := e
    intro x hx
    by_cases hk : k' = k
    · subst hk
      rw [mapInsert_cons_eq, List.map_cons] at hx
      rcases List.mem_cons.mp hx with h1 | h1
      · exact Or.inl h1
      · exact Or.inr (by rw [List.map_cons]; exact List.mem_cons_of_mem _ h1)
    · rw [mapInsert_cons_ne k k' v v' rest hk, List.map_cons] at hx
      rcases List.mem_cons.mp hx with h1 | h1
      · exact Or.inr (by rw [List.map_cons]; exact h1 ▸ List.mem_cons_self _ _)
      · rcases ih x h1 with h2 | h2
        · exact Or.inl h2
        · exact Or.inr (by rw [List.map_cons]; exact List.mem_cons_of_mem _ h2)

theorem mapInsert_keys_count {α : Type} (k : GoStr) (v : α) (l : List (GoStr × α))
    (hnd : (l.map Prod.fst).Nodup) :
    List.count k ((mapInsert k v l).map Prod.fst) = 1 ∧
      ((mapInsert k v l).map Prod.fst).Nodup := by
  induction l with
  | nil => simp [mapInsert]
  | cons e rest ih =>
    obtain ⟨k', v'⟩ := e
    rw [List.map_cons, List.nodup_cons] at hnd
    obtain ⟨hk'nin, hndrest⟩ := hnd
    by_cases hk : k' = k
    · subst hk
      rw [mapInsert_cons_eq]
      rw [List.map_cons]
      constructor
      · rw [List.count_cons_self, List.count_eq_zero.mpr hk'nin]
      · exact List.nodup_cons.mpr ⟨hk'nin, hndrest⟩
    · rw [mapInsert_cons_ne k k' v v' rest hk]
      rw [List.map_cons]
      obtain ⟨ihc, ihn⟩ := ih hndrest
      constructor
      · rw [List.count_cons_of_ne (fun e => hk e.symm), ihc]
      · refine List.nodup_cons.mpr ⟨?_, ihn⟩
        intro hmem
        rcases mapInsert_keys_sub k v rest k' hmem with h1 | h1
        · exact hk h1
        · exact hk'nin h1

theorem mapLookup_insert_other {α : Type} (k n : GoStr) (v : α) (l : List (GoStr × α))
    (hne : k ≠ n) : mapLookup k (mapInsert n v l) = mapLookup k l := by
  induction l with
  | nil =>
    show mapLookup k [(n, v)] = mapLookup k []
    simp only [mapLookup]
    rw [if_neg (fun e : n = k => hne e.symm)]
  | cons e rest ih =>
    obtain ⟨k', v'⟩ := e
    by_cases hk : k' = n
    · subst hk
      rw [mapInsert_cons_eq]
      simp only [mapLookup]
      rw [if_neg (fun e : k' = k => hne e.symm), if_neg (fun e : k' = k => hne e.symm)]
    · rw [mapInsert_cons_ne n k' v v' rest hk]
      simp only [mapLookup]
      rw [ih]

/-- C9: registering twice under the same name raises no error and the
second registration wins: the lookup used by handling returns the second
command, no longer the first, and `RegisteredNames` lists the name
exactly once (given the map invariant that keys are unique). -/
theorem registerLastWins {α : Type} (h : CmdHandler α) (n : GoStr) (c1 c2 : α)
    (hnd : (registeredNames h).Nodup) :
    mapLookup n (register (register h n c1) n c2).cmds = some c2 ∧
    (c1 ≠ c2 → mapLookup n (register (register h n c1) n c2).cmds ≠ some c1) ∧
    List.count n (registeredNames (register (register h n c1) n c2)) = 1 := by
  have h1 : mapLookup n (register (register h n c1) n c2).cmds = some c2 :=
    mapLookup_insert_self n c2 _
  refine ⟨h1, ?_, ?_⟩
  · intro hne hcontra
    rw [h1] at hcontra
    exact hne (Option.some.inj hcontra).symm
  · have step1 := mapInsert_keys_count n c1 h.cmds hnd
    have step2 := mapInsert_keys_count n c2 _ step1.2
    exact step2.1

/-- C9, witness: on a fresh handler, register `0` then `1` under
`"echo"`. -/
theorem registerLastWinsWitness :
    mapLookup (gs "echo")
        (register (register (⟨gs "!", []⟩ : CmdHandler Nat) (gs "echo") 0) (gs "echo") 1).cmds =
      some 1 ∧
    mapLookup (gs "echo")
        (register (register (⟨gs "!", []⟩ : CmdHandler Nat) (gs "echo") 0) (gs "echo") 1).cmds ≠
      some 0 ∧
    List.count (gs "echo")
        (registeredNames
          (register (register (⟨gs "!", []⟩ : CmdHandler Nat) (gs "echo") 0) (gs "echo") 1)) =
      1 := by
  have h := registerLastWins (⟨gs "!", []⟩ : CmdHandler Nat) (gs "echo") 0 1 (by decide)
  exact ⟨h.1, h.2.1 (by decide), h.2.2⟩

/-- C10: `Register` only touches the entry it registers: lookup of any
other name is unchanged and the configured prefix is unchanged. -/
theorem registerFrame {α : Type} (h : CmdHandler α) (n other : GoStr) (c : α)
    (hne : other ≠ n) :
    mapLookup other (register h n c).cmds = mapLookup other h.cmds ∧
    (register h n c).pref = h.pref := by
  exact ⟨mapLookup_insert_other other n c h.cmds hne, rfl⟩

/-- C10, witness: registering `"b"` leaves the entry for `"a"` and the
prefix unchanged. -/
theorem registerFrameWitness :
    mapLookup (gs "a") (register (⟨gs "!", [(gs "a", (5 : Nat))]⟩ : CmdHandler Nat)
        (gs "b") 7).cmds = some 5 ∧
    (register (⟨gs "!", [(gs "a", (5 : Nat))]⟩ : CmdHandler Nat) (gs "b") 7).pref = gs "!" := by
  have h := registerFrame (⟨gs "!", [(gs "a", (5 : Nat))]⟩ : CmdHandler Nat) (gs "b") (gs "a") 7
    (by decide)
  exact ⟨h.1.trans (by decide), h.2⟩

/-- C7, witness: a concrete handler with `0` registered under `"echo"`
and sender prefix `"nick!user@host"`. -/
theorem cmdHandlerHandleEchoWitness :
    handle (⟨gs "!", [(gs "echo", (0 : Nat))]⟩ : CmdHandler Nat)
        ⟨[], gs "nick!user@host", gs "PRIVMSG", [gs "#chan", gs "!echo hi there"]⟩ =
      .dispatched 0 (gs "hi there") (gs "nick") (gs "#chan") ∧
    handle (⟨gs "!", [(gs "echo", (0 : Nat))]⟩ : CmdHandler Nat)
        ⟨[], gs "nick!user@host", gs "PRIVMSG", [gs "#chan", gs "!echo"]⟩ =
      .dispatched 0 [] (gs "nick") (gs "#chan") := by
  have h := (cmdHandlerHandleEcho (⟨gs "!", [(gs "echo", (0 : Nat))]⟩ : CmdHandler Nat)
    [] (gs "nick!user@host") (gs "#chan") rfl (by decide)).1 0 (by decide)
  refine ⟨?_, ?_⟩
  · rw [h.1]
    decide
  · rw [h.2]
    decide
